import Mathlib

/-
Verification of the jakeledoux/bank repository.

Shallow embedding of the funds-movement and ledger-integrity engine:
  src/card_number.py  (Luhn check digits, card number generation)
  src/models.py       (Account, Transaction, deposit / withdraw /
                       charge_card / send_funds / log_transaction)

Modelling conventions:
  Python Decimal values are embedded as exact rationals.  The balance
  column of an Account stores the string produced by the Python format
  string with two fractional digits; that formatting rounds half-to-even,
  embedded here as fmt2.  The utcnow clock is an explicit stream of
  logical timestamps t : Nat -> Nat together with a call counter
  (Bank.clock); each defaulted log_transaction call reads t at the
  counter and advances it.  Exceptions are embedded as an error component
  of the result: every operation returns the post-call Bank together
  with an optional error, mirroring the fact that Python raises before
  any mutation on every failure path of these methods.
-/

/-! ## Decimal digits and the Luhn generator (src/card_number.py) -/

/-- A decimal digit 0-9, one character of a numeric card string. -/
abbrev Digit := Fin 10

/-- Embeds card_number.calc_luhn.  Every digit at odd index (0-indexed) is
doubled, then each entry is replaced by the sum of its decimal digits (each
entry is at most 18, so that sum is d / 10 + d % 10), everything is summed,
multiplied by 9 and reduced mod 10. -/
def calc_luhn (number : List Digit) : Nat :=
  ((number.enum.map (fun p =>
    let v : Nat := (p.2 : Nat)
    let d : Nat := if p.1 % 2 = 1 then 2 * v else v
    d / 10 + d % 10)).sum * 9) % 10

/-- Embeds card_number.verify_luhn: recompute the check digit over all
digits but the last and compare with the last digit.  (On the empty list
the Python code raises an IndexError; the embedding returns false, a case
no claim touches since generated numbers are nonempty.) -/
def verify_luhn (number : List Digit) : Bool :=
  match number.getLast? with
  | some d => calc_luhn number.dropLast == (d : Nat)
  | none => false

/-- One iteration of the loop in card_number.gen_number at attempt k: draw
length - issuer.length - 1 random digits (rand k 0, rand k 1, ...; Nat
subtraction mirrors Python range over a possibly negative count being
empty), append them to the issuer digits, and append the Luhn check digit
of that partial number. -/
def candidate (issuer : List Digit) (length : Nat) (rand : Nat → Nat → Digit)
    (k : Nat) : List Digit :=
  let digits := (List.range (length - issuer.length - 1)).map (rand k)
  let pn := issuer ++ digits
  pn ++ [⟨calc_luhn pn % 10, Nat.mod_lt _ (by decide)⟩]

/-- The retry loop of card_number.gen_number: starting at attempt k with
the given amount of fuel, return the first candidate accepted by the
validator, or none when the fuel runs out. -/
def gen_from (issuer : List Digit) (length : Nat) (validator : List Digit → Bool)
    (rand : Nat → Nat → Digit) : Nat → Nat → Option (List Digit)
  | _, 0 => none
  | k, fuel + 1 =>
    let c := candidate issuer length rand k
    if validator c then some c else gen_from issuer length validator rand (k + 1) fuel

/-- Embeds card_number.gen_number: at most 1000 sampling attempts, then
None.  The random source is passed in explicitly: rand k i is the digit
randrange(10) returns for position i of attempt k. -/
def gen_number (issuer : List Digit) (length : Nat) (validator : List Digit → Bool)
    (rand : Nat → Nat → Digit) : Option (List Digit) :=
  gen_from issuer length validator rand 0 1000

/-! ## Money (Python Decimal plus the two-decimal format used by models.py) -/

/-- Round a rational to the nearest integer, ties to the even neighbour.
This is the rounding the Python Decimal format with two fractional digits
performs (ROUND_HALF_EVEN, the decimal module default). -/
def roundHalfEven (q : ℚ) : ℤ :=
  if q < (⌊q⌋ : ℚ) + 1/2 then ⌊q⌋
  else if (⌊q⌋ : ℚ) + 1/2 < q then ⌊q⌋ + 1
  else if ⌊q⌋ % 2 = 0 then ⌊q⌋ else ⌊q⌋ + 1

/-- The value stored by the Account.balance setter in src/models.py: the
setter formats the Decimal with two fractional digits before storing it,
so the stored value is the argument rounded half-to-even to a whole number
of cents. -/
def fmt2 (q : ℚ) : ℚ := (roundHalfEven (q * 100) : ℚ) / 100

/-- A value representable with exactly two decimal digits, i.e. a whole
number of cents.  Such values pass through fmt2 unchanged. -/
def centVal (q : ℚ) : Prop := ∃ z : ℤ, q = (z : ℚ) / 100

/-! ## Data model (src/models.py) -/

/-- Embeds the accounts table row used by models.py.  The column _balance
holds the two-decimal string written by the balance setter; card is the
column charge_card looks up, public_key the one send_funds and
gen_card_number look up. -/
structure Account where
  id : Nat
  name : String
  card : Option String
  public_key : Option String
  _balance : ℚ
  deriving Repr, DecidableEq

/-- The Account.balance property getter: Decimal(self._balance).  The
string round-trips exactly, so the getter is the stored value. -/
def Account.balance (a : Account) : ℚ := a._balance

/-- Embeds the transactions table row created by Account.log_transaction:
_amount stores str(amount) exactly, balance stores the owning account
balance right after the operation, account_ID is the owning account. -/
structure Transaction where
  amount : ℚ
  recipient : String
  date : Nat
  balance : ℚ
  account_ID : Nat
  deriving Repr, DecidableEq

/-- The errors the four funds-moving operations can raise:
ValueError for a non-positive amount (the InvalidAmount of the spec),
InsufficientBalanceError, and AccountNotFoundError (src/exceptions.py).
No further error kind occurs in src/models.py. -/
inductive Err where
  | invalidAmount
  | insufficientBalance
  | accountNotFound
  deriving Repr, DecidableEq

/-- The session state the operations act on: the accounts table, the
transactions table (in insertion order) and the utcnow call counter. -/
structure Bank where
  accounts : List Account
  transactions : List Transaction
  clock : Nat
  deriving Repr, DecidableEq

/-- The balance setter applied to the account with the given id: store the
new value formatted to two decimals; other accounts are untouched. -/
def updBal (j : Nat) (v : ℚ) (a : Account) : Account :=
  if a.id = j then { a with _balance := fmt2 v } else a

/-- Apply the balance setter of account j inside the session. -/
def Bank.setBalance (b : Bank) (j : Nat) (v : ℚ) : Bank :=
  { b with accounts := b.accounts.map (updBal j v) }

/-- Read the balance property of the account with the given id (0 when no
such row exists; the operations are only ever invoked on existing
accounts). -/
def Bank.balanceOf (b : Bank) (i : Nat) : ℚ :=
  ((b.accounts.find? (fun a => a.id == i)).map Account.balance).getD 0

/-- Read the display name of the account with the given id. -/
def Bank.nameOf (b : Bank) (i : Nat) : String :=
  ((b.accounts.find? (fun a => a.id == i)).map Account.name).getD ""

/-- session.query(Account).filter_by(card=card_number).first() -/
def findByCard (b : Bank) (cn : String) : Option Account :=
  b.accounts.find? (fun a => a.card == some cn)

/-- session.query(Account).filter_by(public_key=public_key).first() -/
def findByKey (b : Bank) (k : String) : Option Account :=
  b.accounts.find? (fun a => a.public_key == some k)

/-- Embeds Account.log_transaction for the account with id ownerId: when
no date is supplied the current utcnow sample t b.clock is used and the
clock advances; the new row records the amount exactly and snapshots the
current balance of the owner. -/
def logTransaction (t : Nat → Nat) (b : Bank) (ownerId : Nat) (amount : ℚ)
    (recipient : String) (date : Option Nat) : Bank :=
  let d := match date with
    | some d0 => d0
    | none => t b.clock
  let clk := match date with
    | some _ => b.clock
    | none => b.clock + 1
  { b with
    transactions := b.transactions ++
      [{ amount := amount, recipient := recipient, date := d,
         balance := b.balanceOf ownerId, account_ID := ownerId }],
    clock := clk }

/-- Embeds Account.deposit for the account with id i.  Result: the session
after the call, plus the raised error if any. -/
def deposit (t : Nat → Nat) (b : Bank) (i : Nat) (amount : ℚ) : Bank × Option Err :=
  if 0 < amount then
    let b1 := b.setBalance i (b.balanceOf i + amount)
    (logTransaction t b1 i amount "ATM Deposit" none, none)
  else (b, some .invalidAmount)

/-- Embeds Account.withdraw for the account with id i. -/
def withdraw (t : Nat → Nat) (b : Bank) (i : Nat) (amount : ℚ) : Bank × Option Err :=
  if 0 < amount then
    if amount ≤ b.balanceOf i then
      let b1 := b.setBalance i (b.balanceOf i - amount)
      (logTransaction t b1 i (-amount) "ATM Withdraw" none, none)
    else (b, some .insufficientBalance)
  else (b, some .invalidAmount)

/-- Embeds Account.charge_card invoked on the account with id i: validate
the amount, look the payer up by card number, check the payer balance,
debit the payer, credit self, then log the payer entry followed by the
self entry. -/
def charge_card (t : Nat → Nat) (b : Bank) (i : Nat) (amount : ℚ)
    (card_number : String) : Bank × Option Err :=
  if 0 < amount then
    match findByCard b card_number with
    | some recipient =>
      if amount ≤ recipient.balance then
        let b1 := b.setBalance recipient.id (recipient.balance - amount)
        let b2 := b1.setBalance i (b1.balanceOf i + amount)
        let b3 := logTransaction t b2 recipient.id (-amount) (b.nameOf i) none
        let b4 := logTransaction t b3 i amount recipient.name none
        (b4, none)
      else (b, some .insufficientBalance)
    | none => (b, some .accountNotFound)
  else (b, some .invalidAmount)

/-- Embeds Account.send_funds invoked on the account with id i: validate
the amount, check the own balance, look the payee up by public key, credit
the payee, debit self, then log the payee entry followed by the self
entry. -/
def send_funds (t : Nat → Nat) (b : Bank) (i : Nat) (amount : ℚ)
    (public_key : String) : Bank × Option Err :=
  if 0 < amount then
    if amount ≤ b.balanceOf i then
      match findByKey b public_key with
      | some recipient =>
        let b1 := b.setBalance recipient.id (recipient.balance + amount)
        let b2 := b1.setBalance i (b1.balanceOf i - amount)
        let b3 := logTransaction t b2 recipient.id amount (b.nameOf i) none
        let b4 := logTransaction t b3 i (-amount) recipient.name none
        (b4, none)
      | none => (b, some .accountNotFound)
    else (b, some .insufficientBalance)
  else (b, some .invalidAmount)

/-- Embeds the static method Account.gen_card_number from src/models.py.
Its pfx argument embeds the prefix parameter of the Python method; the
body calls card_number.gen_number passing only the uniqueness validator,
so gen_number runs with its default issuer number (the empty string) and
default length 16, and pfx is never used. -/
def Account.gen_card_number (pfx : List Digit) (validator : List Digit → Bool)
    (rand : Nat → Nat → Digit) : Option (List Digit) :=
  gen_number [] 16 validator rand

/-! ## Operation sequences for the ledger invariant -/

/-- One invocation of a funds-moving method: the id of the account the
method is called on, the amount, and the card / key argument for the
transfers. -/
inductive Op where
  | deposit (i : Nat) (amount : ℚ)
  | withdraw (i : Nat) (amount : ℚ)
  | charge (i : Nat) (amount : ℚ) (card : String)
  | send (i : Nat) (amount : ℚ) (key : String)

/-- The amount argument of an operation. -/
def Op.amount : Op → ℚ
  | .deposit _ a => a
  | .withdraw _ a => a
  | .charge _ a _ => a
  | .send _ a _ => a

/-- Run one operation; a raised error leaves the session exactly as the
failing call left it (each failing path of the source raises before any
mutation, so this is the pre-call session). -/
def applyOp (t : Nat → Nat) (b : Bank) : Op → Bank
  | .deposit i a => (deposit t b i a).1
  | .withdraw i a => (withdraw t b i a).1
  | .charge i a c => (charge_card t b i a c).1
  | .send i a k => (send_funds t b i a k).1

/-- Run a sequence of operations left to right. -/
def runOps (t : Nat → Nat) (b : Bank) : List Op → Bank
  | [] => b
  | op :: rest => runOps t (applyOp t b op) rest

/-- The sum of the signed amounts of the ledger entries owned by account
id i inside a transaction log. -/
def ownedSum (trs : List Transaction) (i : Nat) : ℚ :=
  ((trs.filter (fun tr => tr.account_ID == i)).map Transaction.amount).sum

/-- Well-formedness of the session: account ids are pairwise distinct
(they embed the primary key of the accounts table). -/
def BankWF (b : Bank) : Prop := (b.accounts.map Account.id).Nodup

/-- The ledger invariant: every account has a nonnegative balance that is
a whole number of cents and equals the sum of the signed amounts of its
own ledger entries.  A freshly created account (balance 0.00, no entries)
satisfies it. -/
def BankInv (b : Bank) : Prop :=
  ∀ a ∈ b.accounts, 0 ≤ a._balance ∧ centVal a._balance ∧
    a._balance = ownedSum b.transactions a.id

/-! ## Concrete data for witnesses and counterexamples -/

/-- The identity clock stream: the n-th utcnow call returns n. -/
def tid : Nat → Nat := fun n => n

/-- Account A: id 0, balance 100.00, card CA, public key KA. -/
def accA : Account :=
  { id := 0, name := "A", card := some "CA", public_key := some "KA", _balance := 100 }

/-- Account B: id 1, balance 50.00, card CB, public key KB. -/
def accB : Account :=
  { id := 1, name := "B", card := some "CB", public_key := some "KB", _balance := 50 }

/-- A fresh account: id 0, balance 0.00, no transactions yet. -/
def accZ : Account :=
  { id := 0, name := "Z", card := some "CZ", public_key := some "KZ", _balance := 0 }

/-- Account P: id 0, balance 10.01, used for the sub-cent transfer
counterexample. -/
def accP : Account :=
  { id := 0, name := "P", card := some "CP", public_key := some "KP", _balance := 1001/100 }

/-- Account Q: id 1, balance 0.00, counterpart of accP. -/
def accQ : Account :=
  { id := 1, name := "Q", card := some "CQ", public_key := some "KQ", _balance := 0 }

/-- Session holding accounts A and B with an empty transaction log. -/
def bankAB : Bank := { accounts := [accA, accB], transactions := [], clock := 0 }

/-- Session holding only the fresh account accZ. -/
def bankZ : Bank := { accounts := [accZ], transactions := [], clock := 0 }

/-- Session holding accounts P and Q with an empty transaction log. -/
def bankPQ : Bank := { accounts := [accP, accQ], transactions := [], clock := 0 }

/-! ## Money lemmas -/

/-- Rounding an integer changes nothing. -/
theorem roundHalfEven_intCast (z : ℤ) : roundHalfEven (z : ℚ) = z := by
  unfold roundHalfEven
  rw [Int.floor_intCast]
  have h : (z : ℚ) < (z : ℚ) + 1/2 := by norm_num
  rw [if_pos h]

/-- A whole number of cents passes through the balance formatting
unchanged. -/
theorem fmt2_cent {q : ℚ} (h : centVal q) : fmt2 q = q := by
  obtain ⟨z, rfl⟩ := h
  have h100 : ((z : ℚ) / 100) * 100 = (z : ℚ) := by field_simp
  unfold fmt2
  rw [h100, roundHalfEven_intCast]

/-- Cent values are closed under addition. -/
theorem centVal_add {a b : ℚ} (ha : centVal a) (hb : centVal b) : centVal (a + b) := by
  obtain ⟨x, rfl⟩ := ha
  obtain ⟨y, rfl⟩ := hb
  exact ⟨x + y, by push_cast; ring⟩

/-- Cent values are closed under negation. -/
theorem centVal_neg {a : ℚ} (ha : centVal a) : centVal (-a) := by
  obtain ⟨x, rfl⟩ := ha
  exact ⟨-x, by push_cast; ring⟩

/-- Cent values are closed under subtraction. -/
theorem centVal_sub {a b : ℚ} (ha : centVal a) (hb : centVal b) : centVal (a - b) := by
  rw [sub_eq_add_neg]
  exact centVal_add ha (centVal_neg hb)

/-! ## Luhn generator lemmas -/

/-- The check digit computation always yields a single digit. -/
theorem calc_luhn_lt (l : List Digit) : calc_luhn l < 10 :=
  Nat.mod_lt _ (by decide)

/-- Any identifier the retry loop returns is one of the sampled
candidates, and it was accepted by the validator. -/
theorem gen_from_eq_some {issuer : List Digit} {length : Nat}
    {validator : List Digit → Bool} {rand : Nat → Nat → Digit} :
    ∀ {k fuel : Nat} {c : List Digit},
      gen_from issuer length validator rand k fuel = some c →
      ∃ j, c = candidate issuer length rand j ∧ validator c = true := by
  intro k fuel
  induction fuel generalizing k with
  | zero => intro c h; simp [gen_from] at h
  | succ n ih =>
    intro c h
    rw [gen_from] at h
    by_cases hv : validator (candidate issuer length rand k)
    · simp only [hv, if_true] at h
      obtain rfl : candidate issuer length rand k = c := Option.some_inj.mp h
      exact ⟨k, rfl, hv⟩
    · simp only [hv, if_false, Bool.false_eq_true] at h
      exact ih h

/-- The retry loop returns none exactly when the validator rejects every
candidate within the fuel budget. -/
theorem gen_from_eq_none {issuer : List Digit} {length : Nat}
    {validator : List Digit → Bool} {rand : Nat → Nat → Digit} :
    ∀ {k fuel : Nat},
      gen_from issuer length validator rand k fuel = none ↔
      ∀ j, j < fuel → validator (candidate issuer length rand (k + j)) = false := by
  intro k fuel
  induction fuel generalizing k with
  | zero => simp [gen_from]
  | succ n ih =>
    rw [gen_from]
    by_cases hv : validator (candidate issuer length rand k)
    · simp only [hv, if_true]
      constructor
      · intro h; cases h
      · intro h
        have h0 := h 0 (Nat.succ_pos n)
        rw [Nat.add_zero, hv] at h0
        cases h0
    · simp only [hv, if_false, Bool.false_eq_true]
      rw [ih]
      constructor
      · intro h j hj
        cases j with
        | zero => rw [Nat.add_zero]; exact Bool.eq_false_iff.mpr hv
        | succ m =>
          have hm := h m (Nat.lt_of_succ_lt_succ hj)
          have harith : k + 1 + m = k + (m + 1) := by omega
          rw [harith] at hm
          exact hm
      · intro h j hj
        have hm := h (j + 1) (Nat.succ_lt_succ hj)
        have harith : k + (j + 1) = k + 1 + j := by omega
        rw [harith] at hm
        exact hm

/-- Shape of one sampled candidate: issuer digits, then the random fill,
then the Luhn check digit of everything before it. -/
theorem candidate_shape (issuer : List Digit) (length : Nat)
    (rand : Nat → Nat → Digit) (k : Nat) :
    ∃ (pn : List Digit) (d : Digit), candidate issuer length rand k = pn ++ [d] ∧
      (∃ fill, pn = issuer ++ fill) ∧
      pn.length = issuer.length + (length - issuer.length - 1) ∧
      (d : Nat) = calc_luhn pn := by
  refine ⟨issuer ++ (List.range (length - issuer.length - 1)).map (rand k),
    ⟨calc_luhn (issuer ++ (List.range (length - issuer.length - 1)).map (rand k)) % 10,
      Nat.mod_lt _ (by decide)⟩, rfl, ⟨_, rfl⟩, ?_, ?_⟩
  · simp
  · exact Nat.mod_eq_of_lt (calc_luhn_lt _)

/-- Claim C8: for every issuer digit sequence and total length for which
generation succeeds, amended by the hypothesis that the issuer digits are
strictly shorter than the requested total length (otherwise the result has
issuer.length + 1 digits, see the counterexample): the returned identifier
has exactly the requested number of digits, begins with the issuer digits,
its last digit is the Luhn check digit of all preceding digits, and
verify_luhn accepts it. -/
theorem gen_number_valid (issuer : List Digit) (length : Nat)
    (validator : List Digit → Bool) (rand : Nat → Nat → Digit) (c : List Digit)
    (hlen : issuer.length < length)
    (hgen : gen_number issuer length validator rand = some c) :
    c.length = length ∧ (∃ rest, c = issuer ++ rest) ∧
      (∃ d : Digit, c.getLast? = some d ∧ (d : Nat) = calc_luhn c.dropLast) ∧
      verify_luhn c = true := by
  obtain ⟨j, rfl, _⟩ := gen_from_eq_some hgen
  obtain ⟨pn, d, hc, ⟨fill, hfill⟩, hpn, hd⟩ := candidate_shape issuer length rand j
  rw [hc]
  have hdrop : (pn ++ [d]).dropLast = pn := List.dropLast_concat
  have hlast : (pn ++ [d]).getLast? = some d := List.getLast?_concat _
  refine ⟨?_, ⟨fill ++ [d], by rw [hfill, List.append_assoc]⟩, ⟨d, hlast, ?_⟩, ?_⟩
  · rw [List.length_append, hpn]
    simp only [List.length_singleton]
    omega
  · rw [hdrop]; exact hd
  · unfold verify_luhn
    rw [hlast, hdrop]
    simp [hd]

/-- Witness for claim C8 at issuer 4, total length 16, an always-true
validator and the all-zero random source: generation succeeds and returns
4 followed by fourteen zeros and the check digit 6. -/
theorem gen_number_valid_witness :
    (([4] : List Digit).length < 16 ∧
      gen_number [4] 16 (fun _ => true) (fun _ _ => 0) =
        some [4, 0, 0, 0, 0, 0, 0, 0, 0, 0, 0, 0, 0, 0, 0, 6]) ∧
    (([4, 0, 0, 0, 0, 0, 0, 0, 0, 0, 0, 0, 0, 0, 0, 6] : List Digit).length = 16 ∧
      (∃ rest, ([4, 0, 0, 0, 0, 0, 0, 0, 0, 0, 0, 0, 0, 0, 0, 6] : List Digit) = [4] ++ rest) ∧
      (∃ d : Digit,
        ([4, 0, 0, 0, 0, 0, 0, 0, 0, 0, 0, 0, 0, 0, 0, 6] : List Digit).getLast? = some d ∧
        (d : Nat) = calc_luhn ([4, 0, 0, 0, 0, 0, 0, 0, 0, 0, 0, 0, 0, 0, 0, 6] : List Digit).dropLast) ∧
      verify_luhn [4, 0, 0, 0, 0, 0, 0, 0, 0, 0, 0, 0, 0, 0, 0, 6] = true) :=
  ⟨⟨by decide, by decide⟩,
    gen_number_valid [4] 16 (fun _ => true) (fun _ _ => 0) _ (by decide) (by decide)⟩

/-- Counterexample to claim C8 as stated: with four issuer digits and a
requested total length of four, generation succeeds (the trivial validator
accepts the first candidate) yet the returned identifier has five digits,
not four. -/
theorem gen_number_length_cex :
    gen_number [4, 4, 4, 4] 4 (fun _ => true) (fun _ _ => 0) = some [4, 4, 4, 4, 6] ∧
      ([4, 4, 4, 4, 6] : List Digit).length ≠ 4 := by
  constructor
  · decide
  · decide

/-- Claim C9: the generation loop performs at most 1000 sampling attempts;
it returns none exactly when the validator rejects all 1000 candidates,
and in particular it terminates with none for an always-false validator. -/
theorem gen_number_bounded (issuer : List Digit) (length : Nat)
    (validator : List Digit → Bool) (rand : Nat → Nat → Digit) :
    (gen_number issuer length validator rand = none ↔
      ∀ k, k < 1000 → validator (candidate issuer length rand k) = false) := by
  unfold gen_number
  rw [gen_from_eq_none]
  simp only [Nat.zero_add]

/-- Witness for claim C9: the always-false validator exhausts the 1000
attempts and generation reports failure. -/
theorem gen_number_bounded_witness :
    gen_number [] 16 (fun _ => false) (fun _ _ => 0) = none :=
  (gen_number_bounded [] 16 (fun _ => false) (fun _ _ => 0)).mpr (fun _ _ => rfl)

/-- Claim C10: Account.gen_card_number ignores its prefix argument — for
any two prefixes and the same validator and random choices it returns the
same identifier, and in particular the result need not begin with the
supplied prefix (with prefix digit 4 and the all-zero random source the
result is sixteen zeros). -/
theorem gen_card_number_ignores_arg :
    (∀ (p₁ p₂ : List Digit) (validator : List Digit → Bool) (rand : Nat → Nat → Digit),
      Account.gen_card_number p₁ validator rand = Account.gen_card_number p₂ validator rand) ∧
    (∃ c, Account.gen_card_number [4] (fun _ => true) (fun _ _ => 0) = some c ∧
      c.take 1 ≠ [(4 : Digit)]) :=
  ⟨fun _ _ _ _ => rfl,
    ⟨[0, 0, 0, 0, 0, 0, 0, 0, 0, 0, 0, 0, 0, 0, 0, 0], by decide, by decide⟩⟩

/-! ## Session lemmas -/

/-- The balance setter does not change the account id. -/
theorem updBal_id (j : Nat) (v : ℚ) (a : Account) : (updBal j v a).id = a.id := by
  unfold updBal
  split <;> rfl

/-- On a table with pairwise distinct ids, looking a member account up by
its own id finds exactly that account. -/
theorem find_id_of_mem :
    ∀ {l : List Account}, (l.map Account.id).Nodup →
      ∀ {a : Account}, a ∈ l → l.find? (fun x => x.id == a.id) = some a := by
  intro l
  induction l with
  | nil => intro _ a ha; cases ha
  | cons hd tl ih =>
    intro hnd a ha
    rw [List.map_cons, List.nodup_cons] at hnd
    rcases List.mem_cons.mp ha with rfl | hmem
    · exact List.find?_cons_of_pos _ (beq_self_eq_true _)
    · have hne : hd.id ≠ a.id := by
        intro hcontra
        exact hnd.1 (hcontra ▸ List.mem_map_of_mem Account.id hmem)
      have hp : ¬ (hd.id == a.id) = true := by
        simpa using hne
      rw [List.find?_cons_of_neg (p := fun x : Account => x.id == a.id) _ hp]
      exact ih hnd.2 hmem

/-- On a well-formed session the balance property of a member account is
its stored balance. -/
theorem balanceOf_of_mem {b : Bank} (hwf : BankWF b) {a : Account}
    (ha : a ∈ b.accounts) : b.balanceOf a.id = a._balance := by
  unfold Bank.balanceOf
  rw [find_id_of_mem hwf ha]
  rfl

/-- On a well-formed session two member accounts with the same id are the
same row. -/
theorem mem_id_inj {b : Bank} (hwf : BankWF b) {a a2 : Account}
    (ha : a ∈ b.accounts) (ha2 : a2 ∈ b.accounts) (h : a.id = a2.id) : a = a2 := by
  have h1 := find_id_of_mem hwf ha
  have h2 := find_id_of_mem hwf ha2
  rw [h] at h1
  rw [h1] at h2
  exact Option.some_inj.mp h2

/-- Setting a balance keeps the list of account ids. -/
theorem setBalance_ids (b : Bank) (j : Nat) (v : ℚ) :
    (b.setBalance j v).accounts.map Account.id = b.accounts.map Account.id := by
  unfold Bank.setBalance
  rw [List.map_map]
  exact List.map_congr_left (fun a _ => updBal_id j v a)

/-- Setting a balance preserves well-formedness. -/
theorem setBalance_wf {b : Bank} (hwf : BankWF b) (j : Nat) (v : ℚ) :
    BankWF (b.setBalance j v) := by
  unfold BankWF
  rw [setBalance_ids]
  exact hwf

/-- Setting the balance of account j leaves the balance of any other id
unchanged. -/
theorem balanceOf_set_ne (b : Bank) {i j : Nat} (hne : i ≠ j) (v : ℚ) :
    (b.setBalance j v).balanceOf i = b.balanceOf i := by
  unfold Bank.balanceOf Bank.setBalance
  simp only
  rw [List.find?_map]
  have hp : ((fun a => a.id == i) ∘ updBal j v) = fun a : Account => a.id == i := by
    funext a
    simp [Function.comp, updBal_id]
  rw [hp]
  cases hfind : b.accounts.find? (fun a => a.id == i) with
  | none => rfl
  | some a =>
    have hai : a.id = i := by simpa using List.find?_some hfind
    have : updBal j v a = a := by
      unfold updBal
      rw [if_neg]
      omega
    simp [this]

/-- Setting the balance of a member account stores the formatted value. -/
theorem balanceOf_set_self {b : Bank} (hwf : BankWF b) {a : Account}
    (ha : a ∈ b.accounts) (v : ℚ) :
    (b.setBalance a.id v).balanceOf a.id = fmt2 v := by
  unfold Bank.balanceOf Bank.setBalance
  simp only
  rw [List.find?_map]
  have hp : ((fun x => x.id == a.id) ∘ updBal a.id v) = fun x : Account => x.id == a.id := by
    funext x
    simp [Function.comp, updBal_id]
  rw [hp, find_id_of_mem hwf ha]
  simp [updBal, Account.balance]

/-- Appending one ledger entry adds its amount to the owned sum of its
owner and changes no other owned sum. -/
theorem ownedSum_append (trs : List Transaction) (tr : Transaction) (i : Nat) :
    ownedSum (trs ++ [tr]) i =
      if tr.account_ID = i then ownedSum trs i + tr.amount else ownedSum trs i := by
  unfold ownedSum
  rw [List.filter_append]
  split
  · next h =>
    have : (tr.account_ID == i) = true := by simpa using h
    simp [List.filter, this]
  · next h =>
    have : ¬ (tr.account_ID == i) = true := by simpa using h
    simp [List.filter, this]

/-! ## Claims C4, C5, C6, C7 -/

/-- Claim C4: a withdraw call with a positive amount exceeding the balance
fails with InsufficientBalance and returns the session exactly as it was:
no balance change and no new ledger entry. -/
theorem withdraw_insufficient (t : Nat → Nat) (b : Bank) (i : Nat) (amt : ℚ)
    (h0 : 0 < amt) (hgt : b.balanceOf i < amt) :
    withdraw t b i amt = (b, some Err.insufficientBalance) := by
  unfold withdraw
  rw [if_pos h0, if_neg (not_le.mpr hgt)]

/-- Witness for claim C4: withdrawing 1000.00 from account A (balance
100.00) fails with InsufficientBalance and leaves the session untouched. -/
theorem withdraw_insufficient_witness :
    withdraw tid bankAB 0 1000 = (bankAB, some Err.insufficientBalance) :=
  withdraw_insufficient tid bankAB 0 1000 (by norm_num)
    (by norm_num [Bank.balanceOf, bankAB, accA, accB, Account.balance])

/-- Claim C5: a send call with a positive amount exceeding the sender
balance fails with InsufficientBalance even when the payee key resolves to
no account — the sender balance check happens before the recipient
lookup, so AccountNotFound is never reached. -/
theorem send_insufficient_before_lookup (t : Nat → Nat) (b : Bank) (i : Nat)
    (amt : ℚ) (key : String) (h0 : 0 < amt) (hgt : b.balanceOf i < amt)
    (hnone : findByKey b key = none) :
    send_funds t b i amt key = (b, some Err.insufficientBalance) := by
  unfold send_funds
  rw [if_pos h0, if_neg (not_le.mpr hgt)]

/-- Witness for claim C5: account A (balance 100.00) sending 1000.00 to
the unassigned key NOPE reports InsufficientBalance, not AccountNotFound. -/
theorem send_insufficient_before_lookup_witness :
    send_funds tid bankAB 0 1000 "NOPE" = (bankAB, some Err.insufficientBalance) :=
  send_insufficient_before_lookup tid bankAB 0 1000 "NOPE" (by norm_num)
    (by norm_num [Bank.balanceOf, bankAB, accA, accB, Account.balance])
    (by simp [findByKey, bankAB, accA, accB])

/-- Counterexample to claim C6 as stated: in send_funds the recipient
lookup does not precede the balance sufficiency check.  Concretely, with a
positive amount, an insufficient sender balance and a key held by no
account, the call reports InsufficientBalance; under the claimed ordering
(validation, then lookup, then sufficiency) it would have to report
AccountNotFound. -/
theorem transfer_order_cex :
    (0 : ℚ) < 1000 ∧ bankAB.balanceOf 0 < 1000 ∧
      findByKey bankAB "NOPE" = none ∧
      send_funds tid bankAB 0 1000 "NOPE" = (bankAB, some Err.insufficientBalance) ∧
      Err.insufficientBalance ≠ Err.accountNotFound := by
  refine ⟨by norm_num, ?_, ?_, ?_, by decide⟩
  · norm_num [Bank.balanceOf, bankAB, accA, accB, Account.balance]
  · simp [findByKey, bankAB, accA, accB]
  · norm_num [send_funds, tid, bankAB, accA, accB, Bank.balanceOf, Account.balance]

/-- Claim C6, amended: in both transfer operations the amount validation
comes first (a non-positive amount reports InvalidAmount regardless of the
card or key), and every failure returns the pre-call session; for
charge_card the recipient lookup precedes the payer balance check, while
for send_funds the sender balance check precedes the recipient lookup.
The six components fully characterize the error paths of both
operations. -/
theorem transfer_error_order :
    (∀ (t : Nat → Nat) (b : Bank) (i : Nat) (amt : ℚ) (cn : String), amt ≤ 0 →
      charge_card t b i amt cn = (b, some Err.invalidAmount)) ∧
    (∀ (t : Nat → Nat) (b : Bank) (i : Nat) (amt : ℚ) (key : String), amt ≤ 0 →
      send_funds t b i amt key = (b, some Err.invalidAmount)) ∧
    (∀ (t : Nat → Nat) (b : Bank) (i : Nat) (amt : ℚ) (cn : String), 0 < amt →
      findByCard b cn = none →
      charge_card t b i amt cn = (b, some Err.accountNotFound)) ∧
    (∀ (t : Nat → Nat) (b : Bank) (i : Nat) (amt : ℚ) (cn : String) (r : Account),
      0 < amt → findByCard b cn = some r → r.balance < amt →
      charge_card t b i amt cn = (b, some Err.insufficientBalance)) ∧
    (∀ (t : Nat → Nat) (b : Bank) (i : Nat) (amt : ℚ) (key : String), 0 < amt →
      b.balanceOf i < amt →
      send_funds t b i amt key = (b, some Err.insufficientBalance)) ∧
    (∀ (t : Nat → Nat) (b : Bank) (i : Nat) (amt : ℚ) (key : String), 0 < amt →
      amt ≤ b.balanceOf i → findByKey b key = none →
      send_funds t b i amt key = (b, some Err.accountNotFound)) := by
  refine ⟨?_, ?_, ?_, ?_, ?_, ?_⟩
  · intro t b i amt cn hle
    unfold charge_card
    rw [if_neg (not_lt.mpr hle)]
  · intro t b i amt key hle
    unfold send_funds
    rw [if_neg (not_lt.mpr hle)]
  · intro t b i amt cn h0 hnone
    unfold charge_card
    rw [if_pos h0, hnone]
  · intro t b i amt cn r h0 hsome hlt
    unfold charge_card
    rw [if_pos h0, hsome]
    simp only [if_neg (not_le.mpr hlt)]
  · intro t b i amt key h0 hlt
    unfold send_funds
    rw [if_pos h0, if_neg (not_le.mpr hlt)]
  · intro t b i amt key h0 hle hnone
    unfold send_funds
    rw [if_pos h0, if_pos hle, hnone]

/-- Witness for claim C6 (amended): a non-positive amount sent to a
nonexistent card or key reports InvalidAmount, and an insufficient balance
with a nonexistent key reports InsufficientBalance. -/
theorem transfer_error_order_witness :
    charge_card tid bankAB 0 0 "NOPE" = (bankAB, some Err.invalidAmount) ∧
      send_funds tid bankAB 0 0 "NOPE" = (bankAB, some Err.invalidAmount) ∧
      send_funds tid bankAB 0 1000 "NOPE" = (bankAB, some Err.insufficientBalance) :=
  ⟨transfer_error_order.1 tid bankAB 0 0 "NOPE" (by norm_num),
    transfer_error_order.2.1 tid bankAB 0 0 "NOPE" (by norm_num),
    transfer_error_order.2.2.2.2.1 tid bankAB 0 1000 "NOPE" (by norm_num)
      (by norm_num [Bank.balanceOf, bankAB, accA, accB, Account.balance])⟩

/-- Counterexample to claim C7 as stated: depositing 0.005 (not a whole
number of cents) into a fresh account raises no error at all — there is no
PrecisionError anywhere in the code — and the stored balance is the
rounded value 0.00 rather than the exact sum 0.005. -/
theorem deposit_no_precision_error_cex :
    (deposit tid bankZ 0 (1/200)).2 = none ∧
      (deposit tid bankZ 0 (1/200)).1.balanceOf 0 = 0 ∧
      ¬ centVal ((1 : ℚ)/200) ∧ (0 : ℚ) ≠ 1/200 := by
  refine ⟨?_, ?_, ?_, by norm_num⟩
  · norm_num [deposit, tid, bankZ, accZ, Bank.balanceOf, Account.balance]
  · norm_num [deposit, tid, bankZ, accZ, Bank.balanceOf, Account.balance,
      Bank.setBalance, logTransaction, updBal, fmt2, roundHalfEven]
  · rintro ⟨z, hz⟩
    have h2 : (2 : ℚ) * z = 1 := by
      rw [div_eq_div_iff (by norm_num) (by norm_num)] at hz
      linarith
    have h3 : (2 : ℤ) * z = 1 := by exact_mod_cast h2
    omega

/-- Claim C7, amended: money arithmetic whose result is not representable
with two decimal digits does not fail; the balance setter silently stores
the result rounded half-to-even to a whole number of cents (fmt2).  A
deposit of any positive amount succeeds and stores fmt2 of the exact sum. -/
theorem deposit_rounds (t : Nat → Nat) (b : Bank) (i : Nat) (amt : ℚ)
    (a : Account) (hwf : BankWF b) (ha : a ∈ b.accounts) (hai : a.id = i)
    (h0 : 0 < amt) :
    (deposit t b i amt).2 = none ∧
      (deposit t b i amt).1.balanceOf i = fmt2 (b.balanceOf i + amt) := by
  unfold deposit
  rw [if_pos h0]
  subst hai
  exact ⟨rfl, balanceOf_set_self hwf ha _⟩

/-- Witness for claim C7 (amended): the 0.005 deposit succeeds and stores
fmt2 of the exact sum. -/
theorem deposit_rounds_witness :
    (deposit tid bankZ 0 (1/200)).2 = none ∧
      (deposit tid bankZ 0 (1/200)).1.balanceOf 0 = fmt2 (bankZ.balanceOf 0 + 1/200) :=
  deposit_rounds tid bankZ 0 (1/200) accZ
    (by simp [BankWF, bankZ, accZ])
    (by simp [bankZ])
    rfl
    (by norm_num)

/-! ## Transfer success shape -/

/-- Logging a transaction does not change any balance. -/
theorem balanceOf_log (t : Nat → Nat) (b : Bank) (j : Nat) (amt : ℚ)
    (rcp : String) (d : Option Nat) (i : Nat) :
    (logTransaction t b j amt rcp d).balanceOf i = b.balanceOf i := rfl

/-- Variant of balanceOf_set_self phrased through an id equation. -/
theorem balanceOf_set_eq {b : Bank} (hwf : BankWF b) {a : Account}
    (ha : a ∈ b.accounts) {j : Nat} (hj : a.id = j) (v : ℚ) :
    (b.setBalance j v).balanceOf j = fmt2 v := by
  subst hj
  exact balanceOf_set_self hwf ha v

/-- On the success path charge_card debits the payer, credits self and
logs the payer entry followed by the self entry. -/
theorem charge_card_success (t : Nat → Nat) (b : Bank) (i : Nat) (amt : ℚ)
    (cn : String) (r : Account) (h0 : 0 < amt) (hfind : findByCard b cn = some r)
    (hsuff : amt ≤ r.balance) :
    charge_card t b i amt cn =
      (logTransaction t
        (logTransaction t
          ((b.setBalance r.id (r.balance - amt)).setBalance i
            ((b.setBalance r.id (r.balance - amt)).balanceOf i + amt))
          r.id (-amt) (b.nameOf i) none)
        i amt r.name none, none) := by
  unfold charge_card
  rw [if_pos h0, hfind]
  dsimp only
  rw [if_pos hsuff]

/-- On the success path send_funds credits the payee, debits self and
logs the payee entry followed by the self entry. -/
theorem send_funds_success (t : Nat → Nat) (b : Bank) (i : Nat) (amt : ℚ)
    (key : String) (r : Account) (h0 : 0 < amt) (hsuff : amt ≤ b.balanceOf i)
    (hfind : findByKey b key = some r) :
    send_funds t b i amt key =
      (logTransaction t
        (logTransaction t
          ((b.setBalance r.id (r.balance + amt)).setBalance i
            ((b.setBalance r.id (r.balance + amt)).balanceOf i - amt))
          r.id amt (b.nameOf i) none)
        i (-amt) r.name none, none) := by
  unfold send_funds
  rw [if_pos h0, if_pos hsuff, hfind]

/-- Two consecutive defaulted logTransaction calls append exactly two
rows, carrying the two consecutive clock samples. -/
theorem log_log_transactions (t : Nat → Nat) (b : Bank) (j1 : Nat) (a1 : ℚ)
    (r1 : String) (j2 : Nat) (a2 : ℚ) (r2 : String) :
    (logTransaction t (logTransaction t b j1 a1 r1 none) j2 a2 r2 none).transactions =
      b.transactions ++
        [{ amount := a1, recipient := r1, date := t b.clock,
           balance := b.balanceOf j1, account_ID := j1 },
         { amount := a2, recipient := r2, date := t (b.clock + 1),
           balance := b.balanceOf j2, account_ID := j2 }] := by
  simp [logTransaction, Bank.balanceOf]

/-- Balances after the two balance mutations of a successful charge_card
between two distinct accounts: self ends at fmt2 of its old balance plus
the amount, the payer at fmt2 of its old balance minus the amount. -/
theorem charge_balances {b : Bank} (hwf : BankWF b) {a r : Account}
    (ha : a ∈ b.accounts) {i : Nat} (hai : a.id = i) (hr : r ∈ b.accounts)
    (hne : r.id ≠ i) (amt : ℚ) :
    ((b.setBalance r.id (r.balance - amt)).setBalance i
        ((b.setBalance r.id (r.balance - amt)).balanceOf i + amt)).balanceOf i
      = fmt2 (a._balance + amt) ∧
    ((b.setBalance r.id (r.balance - amt)).setBalance i
        ((b.setBalance r.id (r.balance - amt)).balanceOf i + amt)).balanceOf r.id
      = fmt2 (r.balance - amt) := by
  have hwf1 : BankWF (b.setBalance r.id (r.balance - amt)) := setBalance_wf hwf _ _
  have hmem1 : updBal r.id (r.balance - amt) a ∈ (b.setBalance r.id (r.balance - amt)).accounts :=
    List.mem_map_of_mem _ ha
  have hid1 : (updBal r.id (r.balance - amt) a).id = i := by rw [updBal_id]; exact hai
  have h1 : (b.setBalance r.id (r.balance - amt)).balanceOf i = b.balanceOf i :=
    balanceOf_set_ne b (Ne.symm hne) _
  constructor
  · rw [balanceOf_set_eq hwf1 hmem1 hid1, h1, ← hai, balanceOf_of_mem hwf ha]
  · rw [balanceOf_set_ne _ hne, balanceOf_set_eq hwf hr rfl]

/-- Balances after the two balance mutations of a successful send_funds
between two distinct accounts: self ends at fmt2 of its old balance minus
the amount, the payee at fmt2 of its old balance plus the amount. -/
theorem send_balances {b : Bank} (hwf : BankWF b) {a r : Account}
    (ha : a ∈ b.accounts) {i : Nat} (hai : a.id = i) (hr : r ∈ b.accounts)
    (hne : r.id ≠ i) (amt : ℚ) :
    ((b.setBalance r.id (r.balance + amt)).setBalance i
        ((b.setBalance r.id (r.balance + amt)).balanceOf i - amt)).balanceOf i
      = fmt2 (a._balance - amt) ∧
    ((b.setBalance r.id (r.balance + amt)).setBalance i
        ((b.setBalance r.id (r.balance + amt)).balanceOf i - amt)).balanceOf r.id
      = fmt2 (r.balance + amt) := by
  have hwf1 : BankWF (b.setBalance r.id (r.balance + amt)) := setBalance_wf hwf _ _
  have hmem1 : updBal r.id (r.balance + amt) a ∈ (b.setBalance r.id (r.balance + amt)).accounts :=
    List.mem_map_of_mem _ ha
  have hid1 : (updBal r.id (r.balance + amt) a).id = i := by rw [updBal_id]; exact hai
  have h1 : (b.setBalance r.id (r.balance + amt)).balanceOf i = b.balanceOf i :=
    balanceOf_set_ne b (Ne.symm hne) _
  constructor
  · rw [balanceOf_set_eq hwf1 hmem1 hid1, h1, ← hai, balanceOf_of_mem hwf ha]
  · rw [balanceOf_set_ne _ hne, balanceOf_set_eq hwf hr rfl]

/-! ## Claims C2 and C3 -/

/-- Claim C2, amended: for every successful transfer (charge_card or
send_funds) of a whole-cent amount between two distinct accounts whose
balances are whole cents (as the balance setter guarantees), exactly two
ledger entries are created, carrying the exact amounts +amt and -amt (the
payer entry is logged first for charge_card, the payee entry first for
send_funds), and the sum of the two balances is unchanged.  The whole-cent
hypothesis on the amount is forced by the sub-cent counterexample, where
rounding destroys money. -/
theorem transfer_two_entries :
    (∀ (t : Nat → Nat) (b : Bank) (i : Nat) (amt : ℚ) (cn : String) (a r : Account),
      BankWF b → a ∈ b.accounts → a.id = i → findByCard b cn = some r → r.id ≠ i →
      0 < amt → amt ≤ r.balance →
      centVal a._balance → centVal r._balance → centVal amt →
      (charge_card t b i amt cn).2 = none ∧
      (∃ e1 e2 : Transaction,
        (charge_card t b i amt cn).1.transactions = b.transactions ++ [e1, e2] ∧
        e1.amount = -amt ∧ e2.amount = amt ∧ e1.amount = -e2.amount) ∧
      (charge_card t b i amt cn).1.balanceOf i + (charge_card t b i amt cn).1.balanceOf r.id
        = b.balanceOf i + b.balanceOf r.id) ∧
    (∀ (t : Nat → Nat) (b : Bank) (i : Nat) (amt : ℚ) (key : String) (a r : Account),
      BankWF b → a ∈ b.accounts → a.id = i → findByKey b key = some r → r.id ≠ i →
      0 < amt → amt ≤ b.balanceOf i →
      centVal a._balance → centVal r._balance → centVal amt →
      (send_funds t b i amt key).2 = none ∧
      (∃ e1 e2 : Transaction,
        (send_funds t b i amt key).1.transactions = b.transactions ++ [e1, e2] ∧
        e1.amount = amt ∧ e2.amount = -amt ∧ e2.amount = -e1.amount) ∧
      (send_funds t b i amt key).1.balanceOf i + (send_funds t b i amt key).1.balanceOf r.id
        = b.balanceOf i + b.balanceOf r.id) := by
  constructor
  · intro t b i amt cn a r hwf ha hai hfind hne h0 hsuff hca hcr hcamt
    have hr : r ∈ b.accounts := List.mem_of_find?_eq_some hfind
    rw [charge_card_success t b i amt cn r h0 hfind hsuff]
    have hbal := charge_balances hwf ha hai hr hne amt
    refine ⟨rfl,
      ⟨_, _, log_log_transactions t _ r.id (-amt) (b.nameOf i) i amt r.name,
        rfl, rfl, by ring⟩, ?_⟩
    rw [balanceOf_log, balanceOf_log, balanceOf_log, balanceOf_log]
    rw [hbal.1, hbal.2]
    simp only [Account.balance]
    rw [fmt2_cent (centVal_add hca hcamt), fmt2_cent (centVal_sub hcr hcamt)]
    rw [← hai, balanceOf_of_mem hwf ha, balanceOf_of_mem hwf hr]
    show a._balance + amt + (r._balance - amt) = a._balance + r._balance
    ring
  · intro t b i amt key a r hwf ha hai hfind hne h0 hsuff hca hcr hcamt
    have hr : r ∈ b.accounts := List.mem_of_find?_eq_some hfind
    rw [send_funds_success t b i amt key r h0 hsuff hfind]
    have hbal := send_balances hwf ha hai hr hne amt
    refine ⟨rfl,
      ⟨_, _, log_log_transactions t _ r.id amt (b.nameOf i) i (-amt) r.name,
        rfl, rfl, by ring⟩, ?_⟩
    rw [balanceOf_log, balanceOf_log, balanceOf_log, balanceOf_log]
    rw [hbal.1, hbal.2]
    simp only [Account.balance]
    rw [fmt2_cent (centVal_sub hca hcamt), fmt2_cent (centVal_add hcr hcamt)]
    rw [← hai, balanceOf_of_mem hwf ha, balanceOf_of_mem hwf hr]
    show a._balance - amt + (r._balance + amt) = a._balance + r._balance
    ring

/-- Witness for claim C2 (amended): account B charges 5.00 to the card of
account A inside bankAB; two entries -5.00 / +5.00 are created and the
total of the two balances is unchanged. -/
theorem transfer_two_entries_witness :
    (charge_card tid bankAB 1 5 "CA").2 = none ∧
      (∃ e1 e2 : Transaction,
        (charge_card tid bankAB 1 5 "CA").1.transactions = bankAB.transactions ++ [e1, e2] ∧
        e1.amount = -5 ∧ e2.amount = 5 ∧ e1.amount = -e2.amount) ∧
      (charge_card tid bankAB 1 5 "CA").1.balanceOf 1 +
          (charge_card tid bankAB 1 5 "CA").1.balanceOf accA.id
        = bankAB.balanceOf 1 + bankAB.balanceOf accA.id :=
  transfer_two_entries.1 tid bankAB 1 5 "CA" accB accA
    (by simp [BankWF, bankAB, accA, accB])
    (by simp [bankAB])
    rfl
    (by simp [findByCard, bankAB, accA, accB])
    (by simp [accA])
    (by norm_num)
    (by norm_num [accA, Account.balance])
    ⟨5000, by norm_num [accB]⟩
    ⟨10000, by norm_num [accA]⟩
    ⟨500, by norm_num⟩

/-- Counterexample to claim C2 as stated: a successful charge of the
sub-cent amount 0.005 between the distinct accounts P (10.01) and Q (0.00)
does not preserve the sum of balances — rounding in the balance setter
maps 10.005 to 10.00 and 0.005 to 0.00, so a cent vanishes. -/
theorem transfer_sum_cex :
    (charge_card tid bankPQ 1 (1/200) "CP").2 = none ∧
      accP.id ≠ accQ.id ∧
      bankPQ.balanceOf 0 + bankPQ.balanceOf 1 = 1001/100 ∧
      (charge_card tid bankPQ 1 (1/200) "CP").1.balanceOf 0 +
        (charge_card tid bankPQ 1 (1/200) "CP").1.balanceOf 1 = 10 ∧
      (10 : ℚ) ≠ 1001/100 := by
  refine ⟨?_, by decide, ?_, ?_, by norm_num⟩
  · norm_num [charge_card, tid, bankPQ, accP, accQ, findByCard, Bank.balanceOf,
      Account.balance]
  · norm_num [bankPQ, accP, accQ, Bank.balanceOf, Account.balance]
  · norm_num [charge_card, tid, bankPQ, accP, accQ, findByCard, Bank.balanceOf,
      Account.balance, Bank.setBalance, logTransaction, updBal, Bank.nameOf,
      fmt2, roundHalfEven]

/-- Claim C3, amended: the two entries of a successful transfer do not in
general share a timestamp.  Each of the two defaulted log_transaction
calls samples utcnow separately: the recipient entry carries the first
clock sample t b.clock and the initiating account entry the next sample
t (b.clock + 1); they agree only when the clock stream returns the same
value at both indices. -/
theorem transfer_timestamps :
    (∀ (t : Nat → Nat) (b : Bank) (i : Nat) (amt : ℚ) (cn : String) (r : Account),
      0 < amt → findByCard b cn = some r → amt ≤ r.balance →
      ∃ e1 e2 : Transaction,
        (charge_card t b i amt cn).1.transactions = b.transactions ++ [e1, e2] ∧
        e1.date = t b.clock ∧ e2.date = t (b.clock + 1)) ∧
    (∀ (t : Nat → Nat) (b : Bank) (i : Nat) (amt : ℚ) (key : String) (r : Account),
      0 < amt → amt ≤ b.balanceOf i → findByKey b key = some r →
      ∃ e1 e2 : Transaction,
        (send_funds t b i amt key).1.transactions = b.transactions ++ [e1, e2] ∧
        e1.date = t b.clock ∧ e2.date = t (b.clock + 1)) := by
  constructor
  · intro t b i amt cn r h0 hfind hsuff
    rw [charge_card_success t b i amt cn r h0 hfind hsuff]
    exact ⟨_, _, log_log_transactions t _ r.id (-amt) (b.nameOf i) i amt r.name, rfl, rfl⟩
  · intro t b i amt key r h0 hsuff hfind
    rw [send_funds_success t b i amt key r h0 hsuff hfind]
    exact ⟨_, _, log_log_transactions t _ r.id amt (b.nameOf i) i (-amt) r.name, rfl, rfl⟩

/-- Witness for claim C3 (amended): in the concrete charge of 5.00 by B on
the card of A the two entries carry the clock samples at indices 0 and 1. -/
theorem transfer_timestamps_witness :
    ∃ e1 e2 : Transaction,
      (charge_card tid bankAB 1 5 "CA").1.transactions = bankAB.transactions ++ [e1, e2] ∧
        e1.date = tid bankAB.clock ∧ e2.date = tid (bankAB.clock + 1) :=
  transfer_timestamps.1 tid bankAB 1 5 "CA" accA
    (by norm_num)
    (by simp [findByCard, bankAB, accA, accB])
    (by norm_num [accA, Account.balance])

/-- Counterexample to claim C3 as stated: under the identity clock stream
the two entries created by a single successful charge carry the distinct
timestamps 0 and 1, so the entries of one transfer do not share a logical
timestamp. -/
theorem transfer_timestamp_cex :
    (charge_card tid bankAB 1 5 "CA").2 = none ∧
      (charge_card tid bankAB 1 5 "CA").1.transactions.map Transaction.date = [0, 1] ∧
      (0 : Nat) ≠ 1 := by
  refine ⟨?_, ?_, by decide⟩
  · norm_num [charge_card, tid, bankAB, accA, accB, findByCard, Bank.balanceOf,
      Account.balance]
  · norm_num [charge_card, tid, bankAB, accA, accB, findByCard, Bank.balanceOf,
      Account.balance, Bank.setBalance, logTransaction, updBal, Bank.nameOf,
      fmt2, roundHalfEven]

/-! ## Claim C1: the ledger invariant -/

/-- Setting a balance does not touch the transaction log. -/
theorem setBalance_transactions (b : Bank) (j : Nat) (v : ℚ) :
    (b.setBalance j v).transactions = b.transactions := rfl

/-- ownedSum over an append of one explicit row. -/
theorem ownedSum_append_row (trs : List Transaction) (amt : ℚ) (rcp : String)
    (d : Nat) (bal : ℚ) (j i : Nat) :
    ownedSum (trs ++ [(⟨amt, rcp, d, bal, j⟩ : Transaction)]) i =
      if j = i then ownedSum trs i + amt else ownedSum trs i := by
  rw [ownedSum_append]

/-- The transaction list after a defaulted logTransaction call. -/
theorem logTransaction_transactions (t : Nat → Nat) (b : Bank) (j : Nat)
    (amt : ℚ) (rcp : String) :
    (logTransaction t b j amt rcp none).transactions =
      b.transactions ++ [(⟨amt, rcp, t b.clock, b.balanceOf j, j⟩ : Transaction)] := rfl

/-- A deposit preserves the ledger invariant when its amount is a whole
number of cents. -/
theorem deposit_inv (t : Nat → Nat) {b : Bank} (hwf : BankWF b) (hinv : BankInv b)
    (i : Nat) {amt : ℚ} (hcamt : centVal amt) : BankInv (deposit t b i amt).1 := by
  unfold deposit
  split
  next h0 =>
    intro x hx
    have hx2 : x ∈ b.accounts.map (updBal i (b.balanceOf i + amt)) := hx
    obtain ⟨a, ha, rfl⟩ := List.mem_map.mp hx2
    obtain ⟨h0a, hca, hsuma⟩ := hinv a ha
    by_cases hid : a.id = i
    · simp only [updBal, if_pos hid]
      have hbal : b.balanceOf i = a._balance := by rw [← hid]; exact balanceOf_of_mem hwf ha
      have hcv : centVal (a._balance + amt) := centVal_add hca hcamt
      refine ⟨?_, ?_, ?_⟩
      · show 0 ≤ fmt2 (b.balanceOf i + amt)
        rw [hbal, fmt2_cent hcv]
        linarith
      · show centVal (fmt2 (b.balanceOf i + amt))
        rw [hbal, fmt2_cent hcv]
        exact hcv
      · show fmt2 (b.balanceOf i + amt) = _
        rw [hbal, fmt2_cent hcv]
        rw [logTransaction_transactions, ownedSum_append_row, setBalance_transactions, if_pos hid.symm, hsuma]
    · simp only [updBal, if_neg hid]
      refine ⟨h0a, hca, ?_⟩
      rw [logTransaction_transactions, ownedSum_append_row, setBalance_transactions,
        if_neg (fun hcontra => hid hcontra.symm), hsuma]
  next => exact hinv

/-- A withdraw preserves the ledger invariant when its amount is a whole
number of cents. -/
theorem withdraw_inv (t : Nat → Nat) {b : Bank} (hwf : BankWF b) (hinv : BankInv b)
    (i : Nat) {amt : ℚ} (hcamt : centVal amt) : BankInv (withdraw t b i amt).1 := by
  unfold withdraw
  split
  next h0 =>
    split
    next hsuff =>
      intro x hx
      have hx2 : x ∈ b.accounts.map (updBal i (b.balanceOf i - amt)) := hx
      obtain ⟨a, ha, rfl⟩ := List.mem_map.mp hx2
      obtain ⟨h0a, hca, hsuma⟩ := hinv a ha
      by_cases hid : a.id = i
      · simp only [updBal, if_pos hid]
        have hbal : b.balanceOf i = a._balance := by rw [← hid]; exact balanceOf_of_mem hwf ha
        have hcv : centVal (a._balance - amt) := centVal_sub hca hcamt
        rw [hbal] at hsuff
        refine ⟨?_, ?_, ?_⟩
        · show 0 ≤ fmt2 (b.balanceOf i - amt)
          rw [hbal, fmt2_cent hcv]
          linarith
        · show centVal (fmt2 (b.balanceOf i - amt))
          rw [hbal, fmt2_cent hcv]
          exact hcv
        · show fmt2 (b.balanceOf i - amt) = _
          rw [hbal, fmt2_cent hcv]
          rw [logTransaction_transactions, ownedSum_append_row, setBalance_transactions, if_pos hid.symm, hsuma]
          ring
      · simp only [updBal, if_neg hid]
        refine ⟨h0a, hca, ?_⟩
        rw [logTransaction_transactions, ownedSum_append_row, setBalance_transactions,
          if_neg (fun hcontra => hid hcontra.symm), hsuma]
    next => exact hinv
  next => exact hinv

/-- The balance setter on the matching account. -/
theorem updBal_apply_pos {a : Account} {j : Nat} (h : a.id = j) (v : ℚ) :
    updBal j v a = { a with _balance := fmt2 v } := by
  unfold updBal
  rw [if_pos h]

/-- The balance setter on a non-matching account. -/
theorem updBal_apply_neg {a : Account} {j : Nat} (h : ¬ a.id = j) (v : ℚ) :
    updBal j v a = a := by
  unfold updBal
  rw [if_neg h]

/-- A charge preserves the ledger invariant when its amount is a whole
number of cents (including the self-charge alias case, where the payer
found by card is the charging account itself). -/
theorem charge_inv (t : Nat → Nat) {b : Bank} (hwf : BankWF b) (hinv : BankInv b)
    (i : Nat) {amt : ℚ} (hcamt : centVal amt) (cn : String) :
    BankInv (charge_card t b i amt cn).1 := by
  unfold charge_card
  split
  next h0 =>
    split
    next r heq =>
      split
      next hsuff =>
        have hr : r ∈ b.accounts := List.mem_of_find?_eq_some heq
        intro x hx
        have hx2 : x ∈ (b.accounts.map (updBal r.id (r.balance - amt))).map
            (updBal i ((b.setBalance r.id (r.balance - amt)).balanceOf i + amt)) := hx
        obtain ⟨y, hy, rfl⟩ := List.mem_map.mp hx2
        obtain ⟨a, ha, rfl⟩ := List.mem_map.mp hy
        obtain ⟨h0a, hca, hsuma⟩ := hinv a ha
        obtain ⟨h0r, hcr, hsumr⟩ := hinv r hr
        by_cases har : a.id = r.id
        · have haR : a = r := mem_id_inj hwf ha hr har
          subst haR
          by_cases hir : a.id = i
          · -- alias case: the payer is the charging account itself
            have hb1 : (b.setBalance a.id (a.balance - amt)).balanceOf i
                = fmt2 (a.balance - amt) := by
              rw [← hir]
              exact balanceOf_set_eq hwf ha rfl _
            have hfmt1 : fmt2 (a.balance - amt) = a._balance - amt := by
              simp only [Account.balance]
              exact fmt2_cent (centVal_sub hca hcamt)
            have hv2cent : centVal (a._balance - amt + amt) :=
              centVal_add (centVal_sub hca hcamt) hcamt
            have hxbal : (updBal i ((b.setBalance a.id (a.balance - amt)).balanceOf i + amt)
                (updBal a.id (a.balance - amt) a))._balance
                = fmt2 ((b.setBalance a.id (a.balance - amt)).balanceOf i + amt) := by
              rw [updBal_apply_pos rfl,
                updBal_apply_pos (a := { a with _balance := fmt2 (a.balance - amt) }) hir]
            have hxid : (updBal i ((b.setBalance a.id (a.balance - amt)).balanceOf i + amt)
                (updBal a.id (a.balance - amt) a)).id = a.id := by
              rw [updBal_id, updBal_id]
            refine ⟨?_, ?_, ?_⟩
            · rw [hxbal, hb1, hfmt1, fmt2_cent hv2cent]
              linarith
            · rw [hxbal, hb1, hfmt1, fmt2_cent hv2cent]
              exact hv2cent
            · rw [hxbal, hxid, hb1, hfmt1, fmt2_cent hv2cent]
              rw [logTransaction_transactions, logTransaction_transactions,
                ownedSum_append_row, ownedSum_append_row,
                setBalance_transactions, setBalance_transactions]
              rw [if_pos hir.symm, if_pos rfl, hsuma]
              ring
          · -- the payer account, distinct from the charging account
            have hxbal : (updBal i ((b.setBalance a.id (a.balance - amt)).balanceOf i + amt)
                (updBal a.id (a.balance - amt) a))._balance
                = fmt2 (a.balance - amt) := by
              rw [updBal_apply_pos rfl,
                updBal_apply_neg (a := { a with _balance := fmt2 (a.balance - amt) }) hir]
            have hxid : (updBal i ((b.setBalance a.id (a.balance - amt)).balanceOf i + amt)
                (updBal a.id (a.balance - amt) a)).id = a.id := by
              rw [updBal_id, updBal_id]
            have hfmt1 : fmt2 (a.balance - amt) = a._balance - amt := by
              simp only [Account.balance]
              exact fmt2_cent (centVal_sub hca hcamt)
            simp only [Account.balance] at hsuff
            refine ⟨?_, ?_, ?_⟩
            · rw [hxbal, hfmt1]
              linarith
            · rw [hxbal, hfmt1]
              exact centVal_sub hca hcamt
            · rw [hxbal, hxid, hfmt1]
              rw [logTransaction_transactions, logTransaction_transactions,
                ownedSum_append_row, ownedSum_append_row,
                setBalance_transactions, setBalance_transactions]
              rw [if_neg (fun h => hir h.symm), if_pos rfl, hsuma]
              ring
        · by_cases hir : a.id = i
          · -- the charging account, distinct from the payer
            have hir_ne : i ≠ r.id := fun h => har (hir.trans h)
            have hb1 : (b.setBalance r.id (r.balance - amt)).balanceOf i
                = b.balanceOf i := balanceOf_set_ne b hir_ne _
            have hbi : b.balanceOf i = a._balance := by
              rw [← hir]
              exact balanceOf_of_mem hwf ha
            have hvcent : centVal (a._balance + amt) := centVal_add hca hcamt
            have hxbal : (updBal i ((b.setBalance r.id (r.balance - amt)).balanceOf i + amt)
                (updBal r.id (r.balance - amt) a))._balance
                = fmt2 ((b.setBalance r.id (r.balance - amt)).balanceOf i + amt) := by
              rw [updBal_apply_neg har, updBal_apply_pos hir]
            have hxid : (updBal i ((b.setBalance r.id (r.balance - amt)).balanceOf i + amt)
                (updBal r.id (r.balance - amt) a)).id = a.id := by
              rw [updBal_id, updBal_id]
            refine ⟨?_, ?_, ?_⟩
            · rw [hxbal, hb1, hbi, fmt2_cent hvcent]
              linarith
            · rw [hxbal, hb1, hbi, fmt2_cent hvcent]
              exact hvcent
            · rw [hxbal, hxid, hb1, hbi, fmt2_cent hvcent]
              rw [logTransaction_transactions, logTransaction_transactions,
                ownedSum_append_row, ownedSum_append_row,
                setBalance_transactions, setBalance_transactions]
              rw [if_pos hir.symm, if_neg (fun h => har h.symm), hsuma]
          · -- a bystander account
            have hxbal : (updBal i ((b.setBalance r.id (r.balance - amt)).balanceOf i + amt)
                (updBal r.id (r.balance - amt) a))._balance = a._balance := by
              rw [updBal_apply_neg har, updBal_apply_neg hir]
            have hxid : (updBal i ((b.setBalance r.id (r.balance - amt)).balanceOf i + amt)
                (updBal r.id (r.balance - amt) a)).id = a.id := by
              rw [updBal_id, updBal_id]
            refine ⟨?_, ?_, ?_⟩
            · rw [hxbal]; exact h0a
            · rw [hxbal]; exact hca
            · rw [hxbal, hxid]
              rw [logTransaction_transactions, logTransaction_transactions,
                ownedSum_append_row, ownedSum_append_row,
                setBalance_transactions, setBalance_transactions]
              rw [if_neg (fun h => hir h.symm), if_neg (fun h => har h.symm), hsuma]
      next => exact hinv
    next => exact hinv
  next => exact hinv

/-- A send preserves the ledger invariant when its amount is a whole
number of cents (including the self-send alias case, where the payee found
by key is the sending account itself). -/
theorem send_inv (t : Nat → Nat) {b : Bank} (hwf : BankWF b) (hinv : BankInv b)
    (i : Nat) {amt : ℚ} (hcamt : centVal amt) (key : String) :
    BankInv (send_funds t b i amt key).1 := by
  unfold send_funds
  split
  next h0 =>
    split
    next hsuff =>
      split
      next r heq =>
        have hr : r ∈ b.accounts := List.mem_of_find?_eq_some heq
        intro x hx
        have hx2 : x ∈ (b.accounts.map (updBal r.id (r.balance + amt))).map
            (updBal i ((b.setBalance r.id (r.balance + amt)).balanceOf i - amt)) := hx
        obtain ⟨y, hy, rfl⟩ := List.mem_map.mp hx2
        obtain ⟨a, ha, rfl⟩ := List.mem_map.mp hy
        obtain ⟨h0a, hca, hsuma⟩ := hinv a ha
        obtain ⟨h0r, hcr, hsumr⟩ := hinv r hr
        by_cases har : a.id = r.id
        · have haR : a = r := mem_id_inj hwf ha hr har
          subst haR
          by_cases hir : a.id = i
          · -- alias case: the payee is the sending account itself
            have hb1 : (b.setBalance a.id (a.balance + amt)).balanceOf i
                = fmt2 (a.balance + amt) := by
              rw [← hir]
              exact balanceOf_set_eq hwf ha rfl _
            have hfmt1 : fmt2 (a.balance + amt) = a._balance + amt := by
              simp only [Account.balance]
              exact fmt2_cent (centVal_add hca hcamt)
            have hv2cent : centVal (a._balance + amt - amt) :=
              centVal_sub (centVal_add hca hcamt) hcamt
            have hxbal : (updBal i ((b.setBalance a.id (a.balance + amt)).balanceOf i - amt)
                (updBal a.id (a.balance + amt) a))._balance
                = fmt2 ((b.setBalance a.id (a.balance + amt)).balanceOf i - amt) := by
              rw [updBal_apply_pos rfl,
                updBal_apply_pos (a := { a with _balance := fmt2 (a.balance + amt) }) hir]
            have hxid : (updBal i ((b.setBalance a.id (a.balance + amt)).balanceOf i - amt)
                (updBal a.id (a.balance + amt) a)).id = a.id := by
              rw [updBal_id, updBal_id]
            refine ⟨?_, ?_, ?_⟩
            · rw [hxbal, hb1, hfmt1, fmt2_cent hv2cent]
              linarith
            · rw [hxbal, hb1, hfmt1, fmt2_cent hv2cent]
              exact hv2cent
            · rw [hxbal, hxid, hb1, hfmt1, fmt2_cent hv2cent]
              rw [logTransaction_transactions, logTransaction_transactions,
                ownedSum_append_row, ownedSum_append_row,
                setBalance_transactions, setBalance_transactions]
              rw [if_pos hir.symm, if_pos rfl, hsuma]
              ring
          · -- the payee account, distinct from the sending account
            have hxbal : (updBal i ((b.setBalance a.id (a.balance + amt)).balanceOf i - amt)
                (updBal a.id (a.balance + amt) a))._balance
                = fmt2 (a.balance + amt) := by
              rw [updBal_apply_pos rfl,
                updBal_apply_neg (a := { a with _balance := fmt2 (a.balance + amt) }) hir]
            have hxid : (updBal i ((b.setBalance a.id (a.balance + amt)).balanceOf i - amt)
                (updBal a.id (a.balance + amt) a)).id = a.id := by
              rw [updBal_id, updBal_id]
            have hfmt1 : fmt2 (a.balance + amt) = a._balance + amt := by
              simp only [Account.balance]
              exact fmt2_cent (centVal_add hca hcamt)
            refine ⟨?_, ?_, ?_⟩
            · rw [hxbal, hfmt1]
              linarith
            · rw [hxbal, hfmt1]
              exact centVal_add hca hcamt
            · rw [hxbal, hxid, hfmt1]
              rw [logTransaction_transactions, logTransaction_transactions,
                ownedSum_append_row, ownedSum_append_row,
                setBalance_transactions, setBalance_transactions]
              rw [if_neg (fun h => hir h.symm), if_pos rfl, hsuma]
        · by_cases hir : a.id = i
          · -- the sending account, distinct from the payee
            have hir_ne : i ≠ r.id := fun h => har (hir.trans h)
            have hb1 : (b.setBalance r.id (r.balance + amt)).balanceOf i
                = b.balanceOf i := balanceOf_set_ne b hir_ne _
            have hbi : b.balanceOf i = a._balance := by
              rw [← hir]
              exact balanceOf_of_mem hwf ha
            have hvcent : centVal (a._balance - amt) := centVal_sub hca hcamt
            have hxbal : (updBal i ((b.setBalance r.id (r.balance + amt)).balanceOf i - amt)
                (updBal r.id (r.balance + amt) a))._balance
                = fmt2 ((b.setBalance r.id (r.balance + amt)).balanceOf i - amt) := by
              rw [updBal_apply_neg har, updBal_apply_pos hir]
            have hxid : (updBal i ((b.setBalance r.id (r.balance + amt)).balanceOf i - amt)
                (updBal r.id (r.balance + amt) a)).id = a.id := by
              rw [updBal_id, updBal_id]
            rw [hbi] at hsuff
            refine ⟨?_, ?_, ?_⟩
            · rw [hxbal, hb1, hbi, fmt2_cent hvcent]
              linarith
            · rw [hxbal, hb1, hbi, fmt2_cent hvcent]
              exact hvcent
            · rw [hxbal, hxid, hb1, hbi, fmt2_cent hvcent]
              rw [logTransaction_transactions, logTransaction_transactions,
                ownedSum_append_row, ownedSum_append_row,
                setBalance_transactions, setBalance_transactions]
              rw [if_pos hir.symm, if_neg (fun h => har h.symm), hsuma]
              ring
          · -- a bystander account
            have hxbal : (updBal i ((b.setBalance r.id (r.balance + amt)).balanceOf i - amt)
                (updBal r.id (r.balance + amt) a))._balance = a._balance := by
              rw [updBal_apply_neg har, updBal_apply_neg hir]
            have hxid : (updBal i ((b.setBalance r.id (r.balance + amt)).balanceOf i - amt)
                (updBal r.id (r.balance + amt) a)).id = a.id := by
              rw [updBal_id, updBal_id]
            refine ⟨?_, ?_, ?_⟩
            · rw [hxbal]; exact h0a
            · rw [hxbal]; exact hca
            · rw [hxbal, hxid]
              rw [logTransaction_transactions, logTransaction_transactions,
                ownedSum_append_row, ownedSum_append_row,
                setBalance_transactions, setBalance_transactions]
              rw [if_neg (fun h => hir h.symm), if_neg (fun h => har h.symm), hsuma]
      next => exact hinv
    next => exact hinv
  next => exact hinv

/-- A deposit does not change the set of account ids. -/
theorem deposit_ids (t : Nat → Nat) (b : Bank) (i : Nat) (amt : ℚ) :
    (deposit t b i amt).1.accounts.map Account.id = b.accounts.map Account.id := by
  unfold deposit
  split
  · exact setBalance_ids b i _
  · rfl

/-- A withdraw does not change the set of account ids. -/
theorem withdraw_ids (t : Nat → Nat) (b : Bank) (i : Nat) (amt : ℚ) :
    (withdraw t b i amt).1.accounts.map Account.id = b.accounts.map Account.id := by
  unfold withdraw
  split
  · split
    · exact setBalance_ids b i _
    · rfl
  · rfl

/-- A charge does not change the set of account ids. -/
theorem charge_ids (t : Nat → Nat) (b : Bank) (i : Nat) (amt : ℚ) (cn : String) :
    (charge_card t b i amt cn).1.accounts.map Account.id = b.accounts.map Account.id := by
  unfold charge_card
  split
  · split
    · split
      · exact (setBalance_ids _ i _).trans (setBalance_ids b _ _)
      · rfl
    · rfl
  · rfl

/-- A send does not change the set of account ids. -/
theorem send_ids (t : Nat → Nat) (b : Bank) (i : Nat) (amt : ℚ) (key : String) :
    (send_funds t b i amt key).1.accounts.map Account.id = b.accounts.map Account.id := by
  unfold send_funds
  split
  · split
    · split
      · exact (setBalance_ids _ i _).trans (setBalance_ids b _ _)
      · rfl
    · rfl
  · rfl

/-- No operation changes the set of account ids. -/
theorem applyOp_ids (t : Nat → Nat) (b : Bank) (op : Op) :
    (applyOp t b op).accounts.map Account.id = b.accounts.map Account.id := by
  cases op with
  | deposit i a => exact deposit_ids t b i a
  | withdraw i a => exact withdraw_ids t b i a
  | charge i a c => exact charge_ids t b i a c
  | send i a k => exact send_ids t b i a k

/-- Every operation preserves well-formedness of the session. -/
theorem applyOp_wf (t : Nat → Nat) (b : Bank) (op : Op) (hwf : BankWF b) :
    BankWF (applyOp t b op) := by
  unfold BankWF
  rw [applyOp_ids]
  exact hwf

/-- Every operation with a whole-cent amount preserves the ledger
invariant. -/
theorem applyOp_inv (t : Nat → Nat) {b : Bank} (hwf : BankWF b) (hinv : BankInv b)
    (op : Op) (hcent : centVal op.amount) : BankInv (applyOp t b op) := by
  cases op with
  | deposit i a => exact deposit_inv t hwf hinv i hcent
  | withdraw i a => exact withdraw_inv t hwf hinv i hcent
  | charge i a c => exact charge_inv t hwf hinv i hcent c
  | send i a k => exact send_inv t hwf hinv i hcent k

/-- Running any sequence of whole-cent operations preserves the ledger
invariant. -/
theorem runOps_inv (t : Nat → Nat) :
    ∀ (ops : List Op) (b : Bank), BankWF b → BankInv b →
      (∀ op ∈ ops, centVal op.amount) → BankInv (runOps t b ops) := by
  intro ops
  induction ops with
  | nil => intro b _ hinv _; exact hinv
  | cons op rest ih =>
    intro b hwf hinv hcent
    exact ih (applyOp t b op) (applyOp_wf t b op hwf)
      (applyOp_inv t hwf hinv op (hcent op (List.mem_cons_self op rest)))
      (fun o ho => hcent o (List.mem_cons_of_mem op ho))

/-- Claim C1, amended: on a well-formed session in which every account
satisfies the ledger invariant (in particular one whose accounts are fresh,
with balance 0.00 and no entries), after any sequence of deposit, withdraw,
charge and send operations whose amounts are whole numbers of cents, every
account has a nonnegative balance equal to the sum of the signed amounts
of its own ledger entries.  The whole-cent hypothesis is forced by the
sub-cent counterexample, where the balance setter rounds but the ledger
row keeps the exact amount.  Failed operations leave the session unchanged,
so runOps covers exactly the sequences of successful operations. -/
theorem ledger_invariant (t : Nat → Nat) (b : Bank) (ops : List Op)
    (hwf : BankWF b) (hinv : BankInv b)
    (hcent : ∀ op ∈ ops, centVal op.amount) :
    ∀ a ∈ (runOps t b ops).accounts,
      0 ≤ a._balance ∧ a._balance = ownedSum (runOps t b ops).transactions a.id := by
  intro a ha
  obtain ⟨h1, _, h3⟩ := runOps_inv t ops b hwf hinv hcent a ha
  exact ⟨h1, h3⟩

/-- Witness for claim C1 (amended): a fresh account receiving a 5.00
deposit followed by a 2.00 withdrawal ends at balance 3.00, nonnegative
and equal to the sum of its two entries 5.00 and -2.00. -/
theorem ledger_invariant_witness :
    0 ≤ ({ accZ with _balance := (3 : ℚ) })._balance ∧
      ({ accZ with _balance := (3 : ℚ) })._balance =
        ownedSum (runOps tid bankZ [Op.deposit 0 5, Op.withdraw 0 2]).transactions
          ({ accZ with _balance := (3 : ℚ) }).id :=
  ledger_invariant tid bankZ [Op.deposit 0 5, Op.withdraw 0 2]
    (by simp [BankWF, bankZ, accZ])
    (by
      intro a ha
      simp only [bankZ, List.mem_singleton] at ha
      subst ha
      refine ⟨by norm_num [accZ], ⟨0, by norm_num [accZ]⟩, ?_⟩
      norm_num [accZ, ownedSum, bankZ])
    (by
      intro op hop
      simp only [List.mem_cons, List.not_mem_nil, or_false] at hop
      rcases hop with rfl | rfl
      · exact ⟨500, by norm_num [Op.amount]⟩
      · exact ⟨200, by norm_num [Op.amount]⟩)
    { accZ with _balance := (3 : ℚ) }
    (by norm_num [runOps, applyOp, deposit, withdraw, tid, bankZ, accZ, Bank.balanceOf,
      Account.balance, Bank.setBalance, logTransaction, updBal, fmt2, roundHalfEven])

/-- Counterexample to claim C1 as stated: the sub-cent deposit of 0.005
into a fresh account succeeds, stores the rounded balance 0.00, yet logs a
ledger entry with the exact amount 0.005 — so the balance does not equal
the sum of the owned entries. -/
theorem ledger_invariant_cex :
    (deposit tid bankZ 0 (1/200)).2 = none ∧
      (runOps tid bankZ [Op.deposit 0 (1/200)]).balanceOf 0 = 0 ∧
      ownedSum (runOps tid bankZ [Op.deposit 0 (1/200)]).transactions 0 = 1/200 ∧
      (0 : ℚ) ≠ 1/200 := by
  refine ⟨?_, ?_, ?_, by norm_num⟩
  · norm_num [deposit, tid, bankZ, accZ, Bank.balanceOf, Account.balance]
  · norm_num [runOps, applyOp, deposit, tid, bankZ, accZ, Bank.balanceOf, Account.balance,
      Bank.setBalance, logTransaction, updBal, fmt2, roundHalfEven]
  · norm_num [runOps, applyOp, deposit, tid, bankZ, accZ, Bank.balanceOf, Account.balance,
      Bank.setBalance, logTransaction, updBal, fmt2, roundHalfEven, ownedSum]
